import Mathlib

/-!
# Verification of the serial frame reassembly and delivery pipeline

A shallow embedding of the multi-packet reassembly buffer, dispatch queue,
HTTP retry loop and serial decode path of `src/raspi/raspi.py`, together
with theorems settling the frozen claims about that code.

Python dictionaries are modelled as association lists with unique-key
discipline: lookup returns the first matching entry, assignment replaces
the first matching entry in place (or appends a fresh key at the end,
matching CPython's insertion-order semantics), and deletion removes the
key.  JSON scalar values are modelled by `Val` (integers and strings; per
the data model, `seq`/`tot` are integers when present).  Wall-clock
times are natural numbers; only differences of times are ever compared.
-/

set_option autoImplicit false

namespace Ciren

/-- A JSON scalar value as it appears in hub packets. -/
inductive Val where
  | vint (n : Int)
  | vstr (s : String)
  deriving DecidableEq, Repr

/-- A decoded packet: the Python `dict` as an insertion-ordered
association list. -/
abbrev Dict := List (String × Val)

section AssocOps

variable {α : Type} {β : Type} [DecidableEq α]

/-- `d.get(k)` / `k in d`: first entry with key `k`, if any. -/
def aget : List (α × β) → α → Option β
  | [], _ => none
  | (k', v) :: d, k => if k = k' then some v else aget d k

/-- `d[k] = v`: replace the entry at `k` in place, or append a fresh one. -/
def aset : List (α × β) → α → β → List (α × β)
  | [], k, v => [(k, v)]
  | (k', w) :: d, k, v => if k = k' then (k, v) :: d else (k', w) :: aset d k v

/-- `del d[k]` / `d.pop(k, None)`: remove the entry at `k`. -/
def adel (d : List (α × β)) (k : α) : List (α × β) :=
  d.filter (fun kv => kv.1 ≠ k)

/-- Unique-key discipline of a Python dict. -/
def keysNodup (d : List (α × β)) : Prop := (d.map Prod.fst).Nodup

instance (d : List (α × β)) : Decidable (keysNodup d) := by
  unfold keysNodup; infer_instance

end AssocOps

/-- Convenience wrappers at `Dict` type. -/
def dget (d : Dict) (k : String) : Option Val := aget d k

def dset (d : Dict) (k : String) (v : Val) : Dict := aset d k v

def dpop (d : Dict) (k : String) : Dict := adel d k

/-- Read a field that the data model declares as an integer
(`seq` / `tot` are integers when present). -/
def intField (d : Dict) (k : String) : Option Int :=
  match dget d k with
  | some (.vint n) => some n
  | _ => none

/-- Python `str(...)` of a scalar, as used by the f-string in
`get_buffer_key`. -/
def valStr : Val → String
  | .vint n => toString n
  | .vstr s => s

/-- Python `str.startswith`.  (`String.startsWith` is defined by
well-founded recursion and does not reduce in the kernel, so we use the
equivalent test on character lists.) -/
def strStartsWith (s p : String) : Bool := p.toList.isPrefixOf s.toList

/-- Python `str.endswith`. -/
def strEndsWith (s p : String) : Bool := p.toList.isSuffixOf s.toList

/-- One reassembly session
(`{"packets": {seq: packet}, "timestamp": float, "total": int}`,
`raspi.py:302-306`). -/
structure BufferEntry where
  packets : List (Int × Dict)
  timestamp : Nat
  total : Int
  deriving DecidableEq, Repr

/-- The global `PACKET_BUFFER` table, keyed by assembly key. -/
abbrev Table := List (String × BufferEntry)

def tget (tbl : Table) (k : String) : Option BufferEntry := aget tbl k

def tset (tbl : Table) (k : String) (e : BufferEntry) : Table := aset tbl k e

def tdel (tbl : Table) (k : String) : Table := adel tbl k

/-- `get_buffer_key` (`raspi.py:244-248`):
`f"{controller_id}_{ts}"` with defaults `"unknown"` and `0`. -/
def get_buffer_key (packet : Dict) : String :=
  valStr ((dget packet "sensor_controller_id").getD (.vstr "unknown"))
    ++ "_" ++ valStr ((dget packet "ts").getD (.vint 0))

/-- The inner loop of `merge_packets` (`raspi.py:272-275`): copy all
`port-`-prefixed fields of one later packet into the accumulator. -/
def overlayPorts (m : Dict) (q : Dict) : Dict :=
  q.foldl (fun acc kv =>
    if strStartsWith kv.1 "port-" = true then dset acc kv.1 kv.2 else acc) m

/-- `merge_packets` (`raspi.py:250-278`): sort parts by sequence index,
take the lowest as base, strip `seq`/`tot`, overlay `port-` fields of the
later parts. -/
def merge_packets (packets : List (Int × Dict)) : Dict :=
  match List.insertionSort (fun a b => a.1 ≤ b.1) packets with
  | [] => []
  | first :: rest =>
      rest.foldl (fun m sp => overlayPorts m sp.2)
        (dpop (dpop first.2 "seq") "tot")

/-- `process_packet` (`raspi.py:280-328`).  `now` is the current wall
clock (`time.time()`), `tbl` the `PACKET_BUFFER` state; returns the new
table state together with the completed record, if any.  The body runs
under `BUFFER_LOCK`, so one call is one atomic step on the table. -/
def process_packet (now : Nat) (tbl : Table) (packet : Dict) :
    Table × Option Dict :=
  match intField packet "seq", intField packet "tot" with
  | some seq, some tot =>
      let key := get_buffer_key packet
      let entry : BufferEntry :=
        match tget tbl key with
        | some e => e
        | none => ⟨[], now, tot⟩
      let entry2 : BufferEntry :=
        ⟨aset entry.packets seq packet, entry.timestamp, entry.total⟩
      if (entry2.packets.length : Int) = tot then
        (tdel tbl key, some (merge_packets entry2.packets))
      else
        (tset tbl key entry2, none)
  | _, _ => (tbl, some packet)

/-- `cleanup_stale_buffers` (`raspi.py:330-345`): drop every entry with
`now - timestamp > timeout`; the second component records the diagnostic
data logged for each eviction (key, received count, expected total). -/
def cleanup_stale_buffers (timeout now : Nat) (tbl : Table) :
    Table × List (String × Nat × Int) :=
  (tbl.filter (fun kv => ¬ (timeout < now - kv.2.timestamp)),
   (tbl.filter (fun kv => timeout < now - kv.2.timestamp)).map
     (fun kv => (kv.1, kv.2.packets.length, kv.2.total)))

/-- One pass of `worker_buffer_cleanup` (`raspi.py:427-434`) over the
combined (table, dispatch queue) state: the janitor only calls
`cleanup_stale_buffers`; it never touches `DATA_QUEUE`. -/
def worker_buffer_cleanup_step (timeout now : Nat)
    (st : Table × List Dict) : (Table × List Dict) × List (String × Nat × Int) :=
  let r := cleanup_stale_buffers timeout now st.1
  ((r.1, st.2), r.2)

/-- `queue_put` (`raspi.py:236-241`): `DATA_QUEUE.put(data, timeout=1)`
on a bounded queue with no consumer draining it during the bounded wait;
a full queue raises `Full`, which is swallowed (payload dropped).  The
Boolean reports whether the record was accepted. -/
def queue_put (maxsize : Nat) (q : List Dict) (x : Dict) : List Dict × Bool :=
  if q.length < maxsize then (q ++ [x], true) else (q, false)

/-- `DATA_QUEUE.get()` as used by `worker_http_sender` (`raspi.py:353`). -/
def queue_get : List Dict → Option (Dict × List Dict)
  | [] => none
  | x :: q => some (x, q)

/-! ## HTTP retry loop (`_http_post`, `raspi.py:197-214`) -/

/-- Result of one POST attempt: a status code, or a raised
`requests.exceptions.RequestException`. -/
inductive HttpOutcome where
  | status (code : Nat)
  | transportError
  deriving DecidableEq, Repr

/-- `200 <= resp.status_code < 300` (`raspi.py:205`); a transport error
never satisfies it. -/
def is2xx : HttpOutcome → Bool
  | .status c => 200 ≤ c && c < 300
  | .transportError => false

/-- `min(1 * attempt, 5)` (`raspi.py:212`). -/
def backoffDelay (attempt : Nat) : Nat := min (1 * attempt) 5

/-- The attempt numbers `range(1, CFG.http_max_retry + 1)`
(`raspi.py:200`). -/
def attemptList : Nat → List Nat
  | 0 => []
  | n + 1 => attemptList n ++ [n + 1]

/-- The loop body of `_http_post` over a list of remaining attempt
numbers.  `outcome a` is the response to attempt `a`; `stopAtStart a`
models `STOP.is_set()` observed at the top of iteration `a`
(`raspi.py:201`), `stopDuringWait a` models `STOP.wait(...)` returning
`True` during the backoff after attempt `a` (`raspi.py:212`).  Returns
(success flag, number of attempts actually made, list of fully completed
backoff delays). -/
def http_post_run (outcome : Nat → HttpOutcome)
    (stopAtStart stopDuringWait : Nat → Bool) :
    List Nat → Bool × Nat × List Nat
  | [] => (false, 0, [])
  | a :: rest =>
      if stopAtStart a then (false, 0, [])
      else if is2xx (outcome a) then (true, 1, [])
      else if stopDuringWait a then (false, 1, [])
      else
        let z := http_post_run outcome stopAtStart stopDuringWait rest
        (z.1, z.2.1 + 1, backoffDelay a :: z.2.2)

/-- `_http_post` with `CFG.http_max_retry = maxRetry`. -/
def http_post (maxRetry : Nat) (outcome : Nat → HttpOutcome)
    (stopAtStart stopDuringWait : Nat → Bool) : Bool × Nat × List Nat :=
  http_post_run outcome stopAtStart stopDuringWait (attemptList maxRetry)

/-! ## Serial decode path (`worker_serial_reader`, `raspi.py:488-513`) -/

/-- Python truthiness of a scalar, as used by
`parsed.get("id") or parsed.get("type") or "UNKNOWN"`. -/
def truthy : Val → Bool
  | .vint n => n != 0
  | .vstr s => s != ""

/-- First truthy of two optional fields, Python `or` semantics. -/
def orTruthy (a b : Option Val) : Option Val :=
  match a with
  | some v => if truthy v then some v else
      (match b with
       | some w => if truthy w then some w else none
       | none => none)
  | none =>
      match b with
      | some w => if truthy w then some w else none
      | none => none

/-- Field normalization after a successful parse (`raspi.py:494-499`). -/
def normalize_packet (nowIso : String) (p : Dict) : Dict :=
  let p1 :=
    match dget p "sensor_controller_id" with
    | some _ => p
    | none =>
        dset p "sensor_controller_id"
          ((orTruthy (dget p "id") (dget p "type")).getD (.vstr "UNKNOWN"))
  match dget p1 "ts_iso" with
  | some _ => p1
  | none => dset p1 "ts_iso" (.vstr nowIso)

/-- Handling of one `[FOR_PI]` envelope payload (`raspi.py:488-513`),
acting on the combined (PACKET_BUFFER, DATA_QUEUE) state.  `parse` is
the `json.loads` oracle (`none` = `JSONDecodeError`; a successful parse
of a brace-delimited payload is a JSON object).  The returned `Nat`
counts malformed-decode diagnostics (`[JSON ERROR]` warning at line 511
or `[DROP] Non-object/malformed JSON` at line 513).  The function is
total: no error propagates out of the per-line handler. -/
def handle_payload (parse : String → Option Dict) (nowIso : String)
    (now maxsize : Nat) (st : Table × List Dict) (jsonPart : String) :
    (Table × List Dict) × Nat :=
  if strStartsWith jsonPart "\x7b" && strEndsWith jsonPart "\x7d" then
    match parse jsonPart with
    | some obj =>
        let pkt := normalize_packet nowIso obj
        let r := process_packet now st.1 pkt
        match r.2 with
        | some c => ((r.1, (queue_put maxsize st.2 c).1), 0)
        | none => ((r.1, st.2), 0)
    | none => (st, 1)
  else (st, 1)

/-! ## Atomic steps on the session table (for the table invariant) -/

/-- One atomic holder of `BUFFER_LOCK`: either an admission through
`process_packet` or a janitor sweep through `cleanup_stale_buffers`. -/
inductive Step where
  | ingest (now : Nat) (packet : Dict)
  | sweep (timeout now : Nat)

/-- Effect of one atomic step on the session table. -/
def applyStep : Step → Table → Table
  | .ingest now p, tbl => (process_packet now tbl p).1
  | .sweep t n, tbl => (cleanup_stale_buffers t n tbl).1

/-- Table invariant: every stored (hence incomplete) session holds
strictly fewer parts than its recorded total. -/
def TableInv (tbl : Table) : Prop :=
  ∀ kv ∈ tbl, (kv.2.packets.length : Int) < kv.2.total

instance (tbl : Table) : Decidable (TableInv tbl) := by
  unfold TableInv; infer_instance

/-- An admission is consistent with the table when its `tot` field is at
least 1 and agrees with the recorded total of the session it lands in
(all parts of one split transmission carry the same `tot`). -/
def StepConsistent : Step → Table → Prop
  | .ingest _ p, tbl =>
      ∀ s t, intField p "seq" = some s → intField p "tot" = some t →
        1 ≤ t ∧ ∀ e, tget tbl (get_buffer_key p) = some e → t = e.total
  | .sweep _ _, _ => True

/-- Admit a list of packets in order, recording each call's result
(`process_packet` invoked once per received packet). -/
def admitAll (now : Nat) : Table → List Dict → Table × List (Option Dict)
  | tbl, [] => (tbl, [])
  | tbl, q :: rest =>
      let r := process_packet now tbl q
      let z := admitAll now r.1 rest
      (z.1, r.2 :: z.2)

/-- The value a port key ends up with after merging: the value carried by
the latest part in the list that contains the key. -/
def lastVal : List Dict → String → Option Val
  | [], _ => none
  | d :: ds, k =>
      match lastVal ds k with
      | some v => some v
      | none => dget d k

/-! ## Association-list lemmas -/

section AssocLemmas

variable {α β : Type} [DecidableEq α]

@[simp] theorem aget_nil (k : α) : aget ([] : List (α × β)) k = none := rfl

theorem aget_cons (k' : α) (v : β) (d : List (α × β)) (k : α) :
    aget ((k', v) :: d) k = if k = k' then some v else aget d k := rfl

@[simp] theorem aget_aset_self (d : List (α × β)) (k : α) (v : β) :
    aget (aset d k v) k = some v := by
  induction d with
  | nil => simp [aset, aget]
  | cons kv d ih =>
      obtain ⟨k', w⟩ := kv
      by_cases h : k = k' <;> simp [aset, aget, h, ih]

theorem aget_aset_ne (d : List (α × β)) (k k' : α) (v : β) (h : k' ≠ k) :
    aget (aset d k v) k' = aget d k' := by
  induction d with
  | nil => simp [aset, aget, h]
  | cons kv d ih =>
      obtain ⟨k0, w⟩ := kv
      by_cases hk : k = k0
      · subst hk
        simp only [aset, if_pos rfl, aget, if_neg h]
      · by_cases hk' : k' = k0 <;> simp [aset, aget, hk, hk', ih]

theorem adel_cons (k0 : α) (w : β) (d : List (α × β)) (k : α) :
    adel ((k0, w) :: d) k
      = if k0 = k then adel d k else (k0, w) :: adel d k := by
  by_cases hk : k0 = k <;> simp [adel, List.filter_cons, hk]

@[simp] theorem aget_adel_self (d : List (α × β)) (k : α) :
    aget (adel d k) k = none := by
  induction d with
  | nil => rfl
  | cons kv d ih =>
      obtain ⟨k0, w⟩ := kv
      rw [adel_cons]
      by_cases hk : k0 = k
      · rw [if_pos hk]; exact ih
      · rw [if_neg hk, aget_cons, if_neg (fun hh => hk hh.symm)]
        exact ih

theorem aget_adel_ne (d : List (α × β)) (k k' : α) (h : k' ≠ k) :
    aget (adel d k) k' = aget d k' := by
  induction d with
  | nil => rfl
  | cons kv d ih =>
      obtain ⟨k0, w⟩ := kv
      rw [adel_cons]
      by_cases hk : k0 = k
      · rw [if_pos hk, aget_cons, if_neg (fun hh => h (hh.trans hk))]
        exact ih
      · rw [if_neg hk]
        by_cases hk' : k' = k0 <;> simp [aget, hk', ih]

/-- Writing to an absent key appends the entry at the end. -/
theorem aset_of_aget_none (d : List (α × β)) (k : α) (v : β)
    (h : aget d k = none) : aset d k v = d ++ [(k, v)] := by
  induction d with
  | nil => rfl
  | cons kv d ih =>
      obtain ⟨k0, w⟩ := kv
      by_cases hk : k = k0
      · simp [aget, hk] at h
      · simp only [aget, if_neg hk] at h
        simp [aset, hk, ih h]

/-- Overwriting a present key keeps the number of entries. -/
theorem aset_length_of_aget_some (d : List (α × β)) (k : α) (v w : β)
    (h : aget d k = some w) : (aset d k v).length = d.length := by
  induction d with
  | nil => simp [aget] at h
  | cons kv d ih =>
      obtain ⟨k0, u⟩ := kv
      by_cases hk : k = k0
      · simp [aset, hk]
      · simp only [aget, if_neg hk] at h
        simp [aset, hk, ih h]

/-- Every entry of `aset d k v` is the new pair or an old entry. -/
theorem mem_aset (d : List (α × β)) (k : α) (v : β) (kv : α × β)
    (h : kv ∈ aset d k v) : kv = (k, v) ∨ kv ∈ d := by
  induction d with
  | nil => simpa [aset] using h
  | cons kv0 d ih =>
      obtain ⟨k0, u⟩ := kv0
      by_cases hk : k = k0
      · simp only [aset, if_pos hk] at h
        rcases List.mem_cons.mp h with h | h
        · exact Or.inl h
        · exact Or.inr (List.mem_cons_of_mem _ h)
      · simp only [aset, if_neg hk] at h
        rcases List.mem_cons.mp h with h | h
        · exact Or.inr (by simp [h])
        · rcases ih h with h' | h'
          · exact Or.inl h'
          · exact Or.inr (List.mem_cons_of_mem _ h')

theorem mem_of_mem_adel (d : List (α × β)) (k : α) (kv : α × β)
    (h : kv ∈ adel d k) : kv ∈ d := List.mem_of_mem_filter h

theorem aget_filter_none (p : α × β → Bool) (d : List (α × β)) (k : α)
    (h : aget d k = none) : aget (d.filter p) k = none := by
  induction d with
  | nil => rfl
  | cons kv d ih =>
      obtain ⟨k0, w⟩ := kv
      by_cases hk : k = k0
      · simp [aget, hk] at h
      · simp only [aget, if_neg hk] at h
        rw [List.filter_cons]
        by_cases hp : p (k0, w) <;> simp [hp, aget, hk, ih h]

/-- A present key together with unique keys pins down the head of the
lookup chain: the entry found is a member, and every other entry for the
same key does not exist. -/
theorem aget_some_mem (d : List (α × β)) (k : α) (v : β)
    (h : aget d k = some v) : (k, v) ∈ d := by
  induction d with
  | nil => simp [aget] at h
  | cons kv d ih =>
      obtain ⟨k0, w⟩ := kv
      by_cases hk : k = k0
      · simp only [aget, if_pos hk] at h
        simp [hk, ← Option.some_inj.mp h]
      · simp only [aget, if_neg hk] at h
        exact List.mem_cons_of_mem _ (ih h)

end AssocLemmas

/-! ## Claim theorems: pass-through, queue, decode, keying, completion -/

/-- C8.  A packet carrying no sequence metadata (`seq` or `tot` absent)
is returned unchanged by `process_packet` and the session table is
untouched (`raspi.py:287-294`). -/
theorem passthrough_no_seq_metadata (now : Nat) (tbl : Table) (packet : Dict)
    (h : dget packet "seq" = none ∨ dget packet "tot" = none) :
    process_packet now tbl packet = (tbl, some packet) := by
  have h' : intField packet "seq" = none ∨ intField packet "tot" = none := by
    rcases h with h | h
    · exact Or.inl (by simp [intField, h])
    · exact Or.inr (by simp [intField, h])
  unfold process_packet
  rcases h' with h' | h' <;> rcases hs : intField packet "seq" with _ | s <;>
    rcases ht : intField packet "tot" with _ | t <;>
    simp_all

/-- Witness for `passthrough_no_seq_metadata`: a single heartbeat-style
packet with no `seq`/`tot` passes through an empty table unchanged. -/
theorem passthrough_no_seq_metadata_witness :
    process_packet 7 [] [("sensor_controller_id", Val.vstr "A")]
      = ([], some [("sensor_controller_id", Val.vstr "A")]) :=
  passthrough_no_seq_metadata 7 [] [("sensor_controller_id", Val.vstr "A")]
    (Or.inl (by decide))

/-- C5.  `queue_put` on a saturated queue drops the incoming record and
leaves the queue unchanged (first conjunct); with capacity 1 and no
consumer, of two back-to-back enqueues the first is accepted, the second
is dropped, and the first record is still returned by a later dequeue
(second conjunct).  The bounded wait is `timeout=1` passed to
`Queue.put` at `raspi.py:239`; `Full` is caught, so the caller never
sees an exception. -/
theorem queue_put_saturated :
    (∀ (maxsize : Nat) (q : List Dict) (x : Dict), maxsize ≤ q.length →
        queue_put maxsize q x = (q, false))
    ∧ (∀ a b : Dict,
        queue_put 1 [] a = ([a], true)
        ∧ queue_put 1 [a] b = ([a], false)
        ∧ queue_get [a] = some (a, [])) := by
  constructor
  · intro maxsize q x h
    simp [queue_put, Nat.not_lt.mpr h]
  · intro a b
    refine ⟨by simp [queue_put], by simp [queue_put], rfl⟩

/-- Witness for `queue_put_saturated` at a concrete saturated queue. -/
theorem queue_put_saturated_witness :
    queue_put 1 [[("a", Val.vint 1)]] [("b", Val.vint 2)]
      = ([[("a", Val.vint 1)]], false) :=
  queue_put_saturated.1 1 [[("a", Val.vint 1)]] [("b", Val.vint 2)] (by decide)

/-- C7.  A `[FOR_PI]` payload that is not brace-delimited (hence not a
JSON object) or that fails `json.loads` yields zero packets — the
session table and the dispatch queue are unchanged — and exactly one
malformed-decode diagnostic; the handler is a total function, so no
fatal error propagates (`raspi.py:488-513`). -/
theorem malformed_payload_dropped (parse : String → Option Dict)
    (nowIso : String) (now maxsize : Nat) (st : Table × List Dict)
    (jsonPart : String)
    (h : (strStartsWith jsonPart "\x7b" && strEndsWith jsonPart "\x7d") = false
        ∨ parse jsonPart = none) :
    handle_payload parse nowIso now maxsize st jsonPart = (st, 1) := by
  unfold handle_payload
  rcases h with h | h
  · simp [h]
  · by_cases hb : (strStartsWith jsonPart "\x7b" && strEndsWith jsonPart "\x7d") = true
    · simp [hb, h]
    · simp only [Bool.not_eq_true] at hb
      simp [hb, h]

/-- Witness for `malformed_payload_dropped`: the payload `"not json"`
produces zero packets and one diagnostic, for any parse oracle. -/
theorem malformed_payload_dropped_witness :
    handle_payload (fun _ => none) "t" 0 2000 ([], []) "not json" = (([], []), 1) :=
  malformed_payload_dropped (fun _ => none) "t" 0 2000 ([], []) "not json"
    (Or.inl (by decide))

/-- C9.  Completion is decided against the `tot` field of the packet
currently being admitted (`raspi.py:318`), not against the total
recorded at session creation: for an existing session the call returns a
merged record precisely when the updated part count equals the current
packet's `tot`, with no constraint tying `t` to `e.total` (first
conjunct).  Sequence index values are never range-checked: a packet with
any index `s` whatsoever and `tot = 1` completes immediately, so a
session can complete holding indices outside `{0..tot-1}` (second
conjunct). -/
theorem completion_uses_current_tot :
    (∀ (now : Nat) (tbl : Table) (packet : Dict) (s t : Int) (e : BufferEntry),
        intField packet "seq" = some s → intField packet "tot" = some t →
        tget tbl (get_buffer_key packet) = some e →
        ((process_packet now tbl packet).2.isSome = true
          ↔ ((aset e.packets s packet).length : Int) = t))
    ∧ (∀ (now : Nat) (tbl : Table) (packet : Dict) (s : Int),
        intField packet "seq" = some s → intField packet "tot" = some 1 →
        tget tbl (get_buffer_key packet) = none →
        (process_packet now tbl packet).2 = some (merge_packets [(s, packet)])) := by
  constructor
  · intro now tbl packet s t e hs ht he
    unfold process_packet
    rw [hs, ht]
    simp only [he]
    by_cases hc : ((aset e.packets s packet).length : Int) = t <;> simp [hc]
  · intro now tbl packet s hs ht he
    unfold process_packet
    rw [hs, ht]
    simp only [he]
    simp [aset]

/-- Witness for `completion_uses_current_tot`: a session created with
recorded total 3 completes when the admitted packet carries `tot = 2`
(first conjunct), and a lone packet with index 5 and `tot = 1` merges
immediately even though 5 is outside `{0}` (second conjunct). -/
theorem completion_uses_current_tot_witness :
    ((process_packet 9
        [("unknown_0", ⟨[(0, [("seq", Val.vint 0), ("tot", Val.vint 3)])], 0, 3⟩)]
        [("seq", Val.vint 1), ("tot", Val.vint 2)]).2.isSome = true
      ↔ ((aset
            (⟨[(0, [("seq", Val.vint 0), ("tot", Val.vint 3)])], 0,
              3⟩ : BufferEntry).packets 1
            [("seq", Val.vint 1), ("tot", Val.vint 2)]).length : Int) = 2)
    ∧ (process_packet 9 [] [("seq", Val.vint 5), ("tot", Val.vint 1)]).2
        = some (merge_packets [(5, [("seq", Val.vint 5), ("tot", Val.vint 1)])]) :=
  ⟨completion_uses_current_tot.1 9 _ _ 1 2 _ (by decide) (by decide) (by decide),
   completion_uses_current_tot.2 9 [] _ 5 (by decide) (by decide) (by decide)⟩

/-- C10.  The assembly key is a deterministic function of only the
`sensor_controller_id` and `ts` fields (first conjunct); two multi-part
packets that both lack these fields share the key `"unknown_0"` and are
admitted into the same `AssemblySession`: after admitting both into a
fresh table, the single session under `"unknown_0"` holds both parts and
still carries the creation data (`timestamp`, `total`) of the first
packet (second conjunct; `raspi.py:244-248`, `299-315`). -/
theorem buffer_key_determines_session :
    (∀ p1 p2 : Dict,
        dget p1 "sensor_controller_id" = dget p2 "sensor_controller_id" →
        dget p1 "ts" = dget p2 "ts" →
        get_buffer_key p1 = get_buffer_key p2)
    ∧ (∀ (p1 p2 : Dict) (s1 t1 s2 t2 : Int) (n1 n2 : Nat),
        dget p1 "sensor_controller_id" = none → dget p1 "ts" = none →
        dget p2 "sensor_controller_id" = none → dget p2 "ts" = none →
        intField p1 "seq" = some s1 → intField p1 "tot" = some t1 →
        intField p2 "seq" = some s2 → intField p2 "tot" = some t2 →
        (1 : Int) ≠ t1 → (2 : Int) ≠ t2 → s2 ≠ s1 →
        get_buffer_key p1 = "unknown_0"
        ∧ tget (process_packet n2 (process_packet n1 [] p1).1 p2).1 "unknown_0"
            = some ⟨[(s1, p1), (s2, p2)], n1, t1⟩) := by
  constructor
  · intro p1 p2 hc hts
    unfold get_buffer_key
    rw [hc, hts]
  · intro p1 p2 s1 t1 s2 t2 n1 n2 hc1 hts1 hc2 hts2 hs1 ht1 hs2 ht2 hone htwo hne
    have hk1 : get_buffer_key p1 = "unknown_0" := by
      unfold get_buffer_key; rw [hc1, hts1]; decide
    have hk2 : get_buffer_key p2 = "unknown_0" := by
      unfold get_buffer_key; rw [hc2, hts2]; decide
    refine ⟨hk1, ?_⟩
    have step1 : process_packet n1 [] p1
        = (tset [] "unknown_0" ⟨[(s1, p1)], n1, t1⟩, none) := by
      unfold process_packet
      rw [hs1, ht1, hk1]
      simp only [tget, aget_nil]
      simp [aset, hone]
    have step2 : (process_packet n2 [("unknown_0", ⟨[(s1, p1)], n1, t1⟩)] p2)
        = (tset [("unknown_0", ⟨[(s1, p1)], n1, t1⟩)] "unknown_0"
            ⟨[(s1, p1), (s2, p2)], n1, t1⟩, none) := by
      unfold process_packet
      rw [hs2, ht2, hk2]
      simp only [tget, aget_cons, if_pos rfl]
      have hset : aset [(s1, p1)] s2 p2 = [(s1, p1), (s2, p2)] := by
        simp [aset, hne]
      simp [hset, htwo]
    rw [step1]
    simp only [tset, aset]
    rw [step2]
    simp [tset, tget, aset, aget]

/-- Witness for `buffer_key_determines_session` at two concrete parts
lacking `sensor_controller_id` and `ts`. -/
theorem buffer_key_determines_session_witness :
    get_buffer_key [("seq", Val.vint 0), ("tot", Val.vint 3)] = "unknown_0"
    ∧ tget (process_packet 4
        (process_packet 3 [] [("seq", Val.vint 0), ("tot", Val.vint 3)]).1
        [("seq", Val.vint 1), ("tot", Val.vint 3)]).1 "unknown_0"
      = some ⟨[(0, [("seq", Val.vint 0), ("tot", Val.vint 3)]),
              (1, [("seq", Val.vint 1), ("tot", Val.vint 3)])], 3, 3⟩ :=
  buffer_key_determines_session.2
    [("seq", Val.vint 0), ("tot", Val.vint 3)]
    [("seq", Val.vint 1), ("tot", Val.vint 3)]
    0 3 1 3 3 4 (by decide) (by decide) (by decide) (by decide) (by decide)
    (by decide) (by decide) (by decide) (by decide) (by decide) (by decide)

/-- C6.  Every session whose age exceeds the staleness timeout while it
has received fewer parts than expected is removed by the janitor sweep;
the sweep emits a diagnostic recording the received and expected part
counts, and it never touches the dispatch queue, so the evicted partial
data produces zero MergedRecords (`raspi.py:330-345`, `427-434`). -/
theorem janitor_evicts_stale (timeout now : Nat) (tbl : Table)
    (q : List Dict) (k : String) (e : BufferEntry)
    (hnd : keysNodup tbl)
    (hmem : tget tbl k = some e)
    (hstale : timeout < now - e.timestamp)
    (hincomplete : (e.packets.length : Int) < e.total) :
    tget ((worker_buffer_cleanup_step timeout now (tbl, q)).1.1) k = none
    ∧ (k, e.packets.length, e.total)
        ∈ (worker_buffer_cleanup_step timeout now (tbl, q)).2
    ∧ (worker_buffer_cleanup_step timeout now (tbl, q)).1.2 = q := by
  refine ⟨?_, ?_, rfl⟩
  · show tget (tbl.filter _) k = none
    clear hincomplete
    induction tbl with
    | nil => simp [tget] at hmem
    | cons kv tbl ih =>
        obtain ⟨k0, e0⟩ := kv
        rw [List.filter_cons]
        by_cases hk : k = k0
        · subst hk
          have he0 : e0 = e := by simpa [tget, aget] using hmem
          subst he0
          rw [if_neg (by simp only [decide_eq_true_eq]; exact fun h => h hstale)]
          have hrest : tget tbl k = none := by
            rcases htl : tget tbl k with _ | v
            · rfl
            · exfalso
              have : (k, v) ∈ tbl := aget_some_mem tbl k v htl
              have : k ∈ tbl.map Prod.fst := List.mem_map_of_mem Prod.fst this
              unfold keysNodup at hnd
              simp only [List.map_cons, List.nodup_cons] at hnd
              exact hnd.1 this
          exact aget_filter_none _ tbl k hrest
        · have hnd' : keysNodup tbl := by
            unfold keysNodup at hnd ⊢
            simpa using (List.nodup_cons.mp (by simpa using hnd)).2
          have hmem' : tget tbl k = some e := by
            simpa [tget, aget, hk] using hmem
          have := ih hnd' hmem'
          by_cases hp : ¬ (timeout < now - e0.timestamp) <;>
            simp [hp, tget, aget, hk] at this ⊢ <;> exact this
  · show (k, e.packets.length, e.total) ∈ (tbl.filter _).map _
    clear hnd hincomplete
    induction tbl with
    | nil => simp [tget] at hmem
    | cons kv tbl ih =>
        obtain ⟨k0, e0⟩ := kv
        rw [List.filter_cons]
        by_cases hk : k = k0
        · subst hk
          have he0 : e0 = e := by simpa [tget, aget] using hmem
          subst he0
          rw [if_pos (by simp only [decide_eq_true_eq]; exact hstale)]
          simp
        · have hmem' : tget tbl k = some e := by
            simpa [tget, aget, hk] using hmem
          by_cases hp : timeout < now - e0.timestamp <;>
            simp [hp, ih hmem']

/-- Witness for `janitor_evicts_stale`: a session with 1 of 3 parts and
age 11 against timeout 10 is evicted, diagnosed as `1/3`, and the
dispatch queue is untouched. -/
theorem janitor_evicts_stale_witness :
    tget ((worker_buffer_cleanup_step 10 11
        ([("unknown_0", ⟨[(0, [("seq", Val.vint 0), ("tot", Val.vint 3)])], 0, 3⟩)],
          [[("x", Val.vint 1)]])).1.1) "unknown_0" = none
    ∧ ("unknown_0", 1, (3 : Int))
        ∈ (worker_buffer_cleanup_step 10 11
            ([("unknown_0", ⟨[(0, [("seq", Val.vint 0), ("tot", Val.vint 3)])], 0, 3⟩)],
              [[("x", Val.vint 1)]])).2
    ∧ (worker_buffer_cleanup_step 10 11
        ([("unknown_0", ⟨[(0, [("seq", Val.vint 0), ("tot", Val.vint 3)])], 0, 3⟩)],
          [[("x", Val.vint 1)]])).1.2 = [[("x", Val.vint 1)]] :=
  janitor_evicts_stale 10 11
    [("unknown_0", ⟨[(0, [("seq", Val.vint 0), ("tot", Val.vint 3)])], 0, 3⟩)]
    [[("x", Val.vint 1)]] "unknown_0"
    ⟨[(0, [("seq", Val.vint 0), ("tot", Val.vint 3)])], 0, 3⟩
    (by decide) (by decide) (by decide) (by decide)

/-! ## Counterexamples found against the claims as frozen -/

/-- Counterexample to C1 as stated.  Two parts of a complete set
`{0, 1}` under one assembly key both carry the port key `"port-1"`;
part 1 (value `"A"`) arrives first, part 0 (value `"B"`) arrives last.
The buffer yields exactly one merged record, but its `"port-1"` field is
`"A"` — the value of the *highest-sequence* part — while the
*last-received* value for that port key is `"B"` carried by part 0.
So "port-prefixed fields equal the last-received value for each port
key" fails for out-of-order arrival. -/
theorem merge_not_last_received :
    (admitAll 0 []
        [[("seq", Val.vint 1), ("tot", Val.vint 2), ("port-1", Val.vstr "A")],
         [("seq", Val.vint 0), ("tot", Val.vint 2), ("port-1", Val.vstr "B")]]).2
      = [none, some [("port-1", Val.vstr "A")]]
    ∧ dget [("seq", Val.vint 0), ("tot", Val.vint 2), ("port-1", Val.vstr "B")]
        "port-1" = some (Val.vstr "B")
    ∧ Val.vstr "A" ≠ Val.vstr "B" := by
  refine ⟨by decide, by decide, by decide⟩

/-- Counterexample to C2 as stated.  Admitting parts whose `tot` fields
disagree (legal inputs: nothing validates `tot` against the recorded
total) drives a stored session to `len(parts) = 3 > expectedTotal = 2`:
`{seq 0, tot 2}` creates the session with total 2, then `{seq 1, tot 5}`
and `{seq 2, tot 5}` are stored without completing, since the completion
check compares against the current packet's `tot = 5`. -/
theorem session_exceeds_expected_total :
    tget (process_packet 0
        (process_packet 0
          (process_packet 0 [] [("seq", Val.vint 0), ("tot", Val.vint 2)]).1
          [("seq", Val.vint 1), ("tot", Val.vint 5)]).1
        [("seq", Val.vint 2), ("tot", Val.vint 5)]).1 "unknown_0"
      = some ⟨[(0, [("seq", Val.vint 0), ("tot", Val.vint 2)]),
              (1, [("seq", Val.vint 1), ("tot", Val.vint 5)]),
              (2, [("seq", Val.vint 2), ("tot", Val.vint 5)])], 0, 2⟩
    ∧ ¬ ((3 : Int) ≤ 2) := by
  refine ⟨by decide, by decide⟩

/-- Counterexample to C3 as stated.  A session holds parts `{0, 1}` of
an expected 3 (all parts so far carried `tot = 3`).  Re-admitting the
previously-seen pair (key `"unknown_0"`, index 0) with `tot = 2`
completes the session prematurely: the part count (still 2 — the part
is overwritten, not double-counted) now equals the *current* packet's
`tot`, so `process_packet` returns a merged record even though part 2
never arrived. -/
theorem readmission_premature_completion :
    tget (admitAll 0 []
        [[("seq", Val.vint 0), ("tot", Val.vint 3)],
         [("seq", Val.vint 1), ("tot", Val.vint 3)]]).1 "unknown_0"
      = some ⟨[(0, [("seq", Val.vint 0), ("tot", Val.vint 3)]),
              (1, [("seq", Val.vint 1), ("tot", Val.vint 3)])], 0, 3⟩
    ∧ (process_packet 1
        (admitAll 0 []
          [[("seq", Val.vint 0), ("tot", Val.vint 3)],
           [("seq", Val.vint 1), ("tot", Val.vint 3)]]).1
        [("seq", Val.vint 0), ("tot", Val.vint 2)]).2.isSome = true := by
  refine ⟨by decide, by decide⟩

/-- C3 (amended).  Re-admitting a previously-seen (key, index) pair
whose `tot` agrees with the session's recorded total, while the session
is strictly incomplete, keeps `expectedTotal` and the count of distinct
indices unchanged — the stored part is overwritten, not double-counted —
and `process_packet` still returns `None`. -/
theorem readmission_idempotent (now : Nat) (tbl : Table) (packet : Dict)
    (s : Int) (e : BufferEntry) (old : Dict)
    (hs : intField packet "seq" = some s)
    (ht : intField packet "tot" = some e.total)
    (he : tget tbl (get_buffer_key packet) = some e)
    (hseen : aget e.packets s = some old)
    (hincomplete : (e.packets.length : Int) < e.total) :
    (process_packet now tbl packet).2 = none
    ∧ tget (process_packet now tbl packet).1 (get_buffer_key packet)
        = some ⟨aset e.packets s packet, e.timestamp, e.total⟩
    ∧ (aset e.packets s packet).length = e.packets.length := by
  have hlen : (aset e.packets s packet).length = e.packets.length :=
    aset_length_of_aget_some e.packets s packet old hseen
  have hne : ¬ (((aset e.packets s packet).length : Int) = e.total) := by
    rw [hlen]; exact ne_of_lt hincomplete
  unfold process_packet
  rw [hs, ht]
  simp only [he, hne, if_false]
  refine ⟨trivial, ?_, hlen⟩
  show tget (tset tbl _ _) _ = _
  simp [tget, tset, aget_aset_self]

/-- Witness for `readmission_idempotent`: redelivering part 0 (same
`tot = 3`) to a session holding parts `{0, 1}` of 3 changes nothing and
returns `None`. -/
theorem readmission_idempotent_witness :
    (process_packet 1
        [("unknown_0", ⟨[(0, [("seq", Val.vint 0), ("tot", Val.vint 3)]),
                        (1, [("seq", Val.vint 1), ("tot", Val.vint 3)])], 0, 3⟩)]
        [("seq", Val.vint 0), ("tot", Val.vint 3)]).2 = none
    ∧ tget (process_packet 1
        [("unknown_0", ⟨[(0, [("seq", Val.vint 0), ("tot", Val.vint 3)]),
                        (1, [("seq", Val.vint 1), ("tot", Val.vint 3)])], 0, 3⟩)]
        [("seq", Val.vint 0), ("tot", Val.vint 3)]).1
        (get_buffer_key [("seq", Val.vint 0), ("tot", Val.vint 3)])
      = some ⟨aset
          [(0, [("seq", Val.vint 0), ("tot", Val.vint 3)]),
           (1, [("seq", Val.vint 1), ("tot", Val.vint 3)])] 0
          [("seq", Val.vint 0), ("tot", Val.vint 3)], 0, 3⟩
    ∧ (aset
          [(0, [("seq", Val.vint 0), ("tot", Val.vint 3)]),
           (1, [("seq", Val.vint 1), ("tot", Val.vint 3)])] 0
          [("seq", Val.vint 0), ("tot", Val.vint 3)]).length
        = [(0, [("seq", Val.vint 0), ("tot", Val.vint 3)]),
           (1, [("seq", Val.vint 1), ("tot", Val.vint 3)])].length :=
  readmission_idempotent 1
    [("unknown_0", ⟨[(0, [("seq", Val.vint 0), ("tot", Val.vint 3)]),
                    (1, [("seq", Val.vint 1), ("tot", Val.vint 3)])], 0, 3⟩)]
    [("seq", Val.vint 0), ("tot", Val.vint 3)] 0
    ⟨[(0, [("seq", Val.vint 0), ("tot", Val.vint 3)]),
      (1, [("seq", Val.vint 1), ("tot", Val.vint 3)])], 0, 3⟩
    [("seq", Val.vint 0), ("tot", Val.vint 3)]
    (by decide) (by decide) (by decide) (by decide) (by decide)

/-! ## The HTTP retry loop -/

theorem http_post_run_all_fail (outcome : Nat → HttpOutcome)
    (hfail : ∀ a, is2xx (outcome a) = false) (l : List Nat) :
    http_post_run outcome (fun _ => false) (fun _ => false) l
      = (false, l.length, l.map backoffDelay) := by
  induction l with
  | nil => rfl
  | cons a l ih => simp [http_post_run, hfail a, ih]

theorem http_post_run_stop_mid (outcome : Nat → HttpOutcome)
    (hfail : ∀ a, is2xx (outcome a) = false) (k : Nat) (l1 l2 : List Nat)
    (hk : k ∉ l1) :
    http_post_run outcome (fun _ => false) (fun a => a == k) (l1 ++ k :: l2)
      = (false, l1.length + 1, l1.map backoffDelay) := by
  induction l1 with
  | nil => simp [http_post_run, hfail k]
  | cons a l1 ih =>
      have ha : a ≠ k := fun h => hk (by simp [h])
      have ih' := ih (fun h => hk (List.mem_cons_of_mem a h))
      simp [http_post_run, hfail a, ha, ih']

theorem attemptList_length : ∀ n, (attemptList n).length = n := by
  intro n
  induction n with
  | zero => rfl
  | succ m ih => simp [attemptList, ih]

theorem mem_attemptList (a : Nat) : ∀ n, a ∈ attemptList n → 1 ≤ a ∧ a ≤ n := by
  intro n
  induction n with
  | zero => intro h; simp [attemptList] at h
  | succ m ih =>
      intro h
      simp only [attemptList, List.mem_append, List.mem_singleton] at h
      rcases h with h | h
      · have := ih h; omega
      · omega

theorem attemptList_split (k : Nat) (h1 : 1 ≤ k) :
    ∀ max, k ≤ max →
      ∃ tail, attemptList max = attemptList (k - 1) ++ k :: tail := by
  intro max
  induction max with
  | zero => intro h; omega
  | succ m ih =>
      intro h
      by_cases hk : k ≤ m
      · obtain ⟨tail, htail⟩ := ih hk
        exact ⟨tail ++ [m + 1], by simp [attemptList, htail]⟩
      · have hkm : k = m + 1 := by omega
        subst hkm
        exact ⟨[], by simp [attemptList]⟩

theorem getLast_attemptList_map (m : Nat) (h : 1 ≤ m) :
    ((attemptList m).map backoffDelay).getLast? = some (backoffDelay m) := by
  obtain ⟨m', rfl⟩ : ∃ m', m = m' + 1 := ⟨m - 1, by omega⟩
  show ((attemptList m' ++ [m' + 1]).map backoffDelay).getLast? = _
  rw [List.map_append]
  simp

theorem backoffDelay_mono (m : Nat) : backoffDelay m ≤ backoffDelay (m + 1) := by
  unfold backoffDelay
  exact min_le_min (by omega) (le_refl 5)

theorem backoff_chain (n : Nat) :
    List.Chain' (· ≤ ·) ((attemptList n).map backoffDelay) := by
  induction n with
  | zero => simp [attemptList]
  | succ m ih =>
      show List.Chain' _ ((attemptList m ++ [m + 1]).map backoffDelay)
      rw [List.map_append]
      rcases Nat.eq_zero_or_pos m with hm | hm
      · subst hm; simp [attemptList]
      · refine List.Chain'.append ih (by simp) ?_
        intro x hx y hy
        rw [getLast_attemptList_map m hm] at hx
        simp only [Option.mem_def, Option.some_inj] at hx
        simp only [List.map_cons, List.map_nil, List.head?_cons,
          Option.mem_def, Option.some_inj] at hy
        subst hx
        rw [← hy]
        exact backoffDelay_mono m

/-- C4.  The retry policy of `_http_post` (`raspi.py:197-214`), for a
job whose every attempt fails (no 2xx status — any other status or a
transport error is a failed attempt, by definition of `is2xx`):
(1) with no shutdown signal, exactly `maxRetry` (the configured
`HTTP_MAX_RETRY`) attempts are made and the call reports failure;
(2) the backoff delays waited between attempts, `min(attempt, 5)`, form
a monotonically non-decreasing sequence (attempt number scaled, capped
at the fixed ceiling 5);
(3) if the shutdown signal fires during the backoff wait after attempt
`k`, the job is abandoned immediately with a failure result after
exactly `k` attempts, with only the `k - 1` earlier waits completed. -/
theorem http_retry_policy (maxRetry : Nat) (outcome : Nat → HttpOutcome)
    (hfail : ∀ a, is2xx (outcome a) = false) :
    http_post maxRetry outcome (fun _ => false) (fun _ => false)
      = (false, maxRetry, (attemptList maxRetry).map backoffDelay)
    ∧ List.Chain' (· ≤ ·) ((attemptList maxRetry).map backoffDelay)
    ∧ (∀ k, 1 ≤ k → k ≤ maxRetry →
        http_post maxRetry outcome (fun _ => false) (fun a => a == k)
          = (false, k, (attemptList (k - 1)).map backoffDelay)) := by
  refine ⟨?_, backoff_chain maxRetry, ?_⟩
  · rw [http_post, http_post_run_all_fail outcome hfail, attemptList_length]
  · intro k h1 h2
    obtain ⟨tail, htail⟩ := attemptList_split k h1 maxRetry h2
    have hnot : k ∉ attemptList (k - 1) := by
      intro hmem
      have := mem_attemptList k (k - 1) hmem
      omega
    rw [http_post, htail,
      http_post_run_stop_mid outcome hfail k (attemptList (k - 1)) tail hnot,
      attemptList_length]
    have : k - 1 + 1 = k := by omega
    rw [this]

/-! ## Characterization of `process_packet` and the janitor sweep -/

theorem aset_length_le {α β : Type} [DecidableEq α]
    (d : List (α × β)) (k : α) (v : β) :
    (aset d k v).length ≤ d.length + 1 := by
  induction d with
  | nil => simp [aset]
  | cons kv d ih =>
      obtain ⟨k0, w⟩ := kv
      by_cases hk : k = k0 <;> simp [aset, hk] <;> omega

theorem aget_filter_some {α β : Type} [DecidableEq α]
    (p : α × β → Bool) (d : List (α × β)) (k : α) (v : β)
    (h : aget d k = some v) (hp : p (k, v) = true) :
    aget (d.filter p) k = some v := by
  induction d with
  | nil => simp [aget] at h
  | cons kv d ih =>
      obtain ⟨k0, w⟩ := kv
      rw [List.filter_cons]
      by_cases hk : k = k0
      · subst hk
        have hw : w = v := by simpa [aget] using h
        subst hw
        rw [if_pos hp]
        simp [aget]
      · simp only [aget, if_neg hk] at h
        by_cases hq : p (k0, w) = true <;> simp [hq, aget, hk, ih h]

/-- A packet without integer `seq`/`tot` metadata passes through. -/
theorem process_packet_no_meta (now : Nat) (tbl : Table) (p : Dict)
    (h : intField p "seq" = none ∨ intField p "tot" = none) :
    process_packet now tbl p = (tbl, some p) := by
  unfold process_packet
  rcases h with h | h <;> rcases hs : intField p "seq" with _ | s <;>
    rcases ht : intField p "tot" with _ | t <;> simp_all

/-- The completing branch of `process_packet`. -/
theorem process_packet_complete (now : Nat) (tbl : Table) (p : Dict)
    (s t : Int) (e : BufferEntry)
    (hs : intField p "seq" = some s) (ht : intField p "tot" = some t)
    (he : (tget tbl (get_buffer_key p)).getD ⟨[], now, t⟩ = e)
    (hcomp : ((aset e.packets s p).length : Int) = t) :
    process_packet now tbl p
      = (tdel tbl (get_buffer_key p), some (merge_packets (aset e.packets s p))) := by
  unfold process_packet
  rw [hs, ht]
  rcases hl : tget tbl (get_buffer_key p) with _ | e1 <;>
    rw [hl] at he <;> simp only [Option.getD] at he <;> subst he <;>
    simp [hl, hcomp]

/-- The buffering branch of `process_packet`. -/
theorem process_packet_store (now : Nat) (tbl : Table) (p : Dict)
    (s t : Int) (e : BufferEntry)
    (hs : intField p "seq" = some s) (ht : intField p "tot" = some t)
    (he : (tget tbl (get_buffer_key p)).getD ⟨[], now, t⟩ = e)
    (hncomp : ¬ (((aset e.packets s p).length : Int) = t)) :
    process_packet now tbl p
      = (tset tbl (get_buffer_key p)
          ⟨aset e.packets s p, e.timestamp, e.total⟩, none) := by
  unfold process_packet
  rw [hs, ht]
  rcases hl : tget tbl (get_buffer_key p) with _ | e1 <;>
    rw [hl] at he <;> simp only [Option.getD] at he <;> subst he <;>
    simp [hl, hncomp]

/-- A fresh (non-stale) session survives the janitor sweep. -/
theorem tget_cleanup_of_fresh (timeout now : Nat) (tbl : Table)
    (k : String) (e : BufferEntry)
    (hk : tget tbl k = some e) (hfresh : ¬ (timeout < now - e.timestamp)) :
    tget (cleanup_stale_buffers timeout now tbl).1 k = some e := by
  unfold cleanup_stale_buffers
  exact aget_filter_some _ tbl k e hk (by simp [hfresh])

/-! ## Merge analysis: sorting and field provenance -/

theorem aget_eq_none_of_not_mem_keys {α β : Type} [DecidableEq α]
    (d : List (α × β)) (k : α) (h : k ∉ d.map Prod.fst) :
    aget d k = none := by
  rcases hl : aget d k with _ | v
  · rfl
  · exact absurd (List.mem_map_of_mem Prod.fst (aget_some_mem d k v hl)) h

/-- An insertion sort of a permutation of a strictly key-sorted list of
parts with pairwise-distinct keys recovers that sorted list.  This is
the `sorted(packets.items())` step of `merge_packets`: the arrival order
of the parts is irrelevant. -/
theorem insertionSort_parts_canonical (P L : List (Int × Dict))
    (hperm : P.Perm L)
    (hL : L.Pairwise (fun a b => a.1 < b.1))
    (hP : (P.map Prod.fst).Nodup) :
    List.insertionSort (fun a b => a.1 ≤ b.1) P = L := by
  haveI : IsTotal (Int × Dict) (fun a b => a.1 ≤ b.1) :=
    ⟨fun a b => le_total a.1 b.1⟩
  haveI : IsTrans (Int × Dict) (fun a b => a.1 ≤ b.1) :=
    ⟨fun _ _ _ hab hbc => le_trans hab hbc⟩
  haveI : IsAntisymm (Int × Dict) (fun a b => a.1 < b.1) :=
    ⟨fun _ _ h1 h2 => absurd h2 (lt_asymm h1)⟩
  have hsp : (List.insertionSort (fun a b => a.1 ≤ b.1) P).Perm P :=
    List.perm_insertionSort _ P
  have hsorted : List.Sorted (fun a b => a.1 ≤ b.1)
      (List.insertionSort (fun a b => a.1 ≤ b.1) P) :=
    List.sorted_insertionSort _ P
  have hndS : ((List.insertionSort (fun a b => a.1 ≤ b.1) P).map Prod.fst).Nodup :=
    ((hsp.map Prod.fst).nodup_iff).mpr hP
  have hneq : (List.insertionSort (fun a b => a.1 ≤ b.1) P).Pairwise
      (fun a b => a.1 ≠ b.1) := List.pairwise_map.mp hndS
  have hstrict : (List.insertionSort (fun a b => a.1 ≤ b.1) P).Pairwise
      (fun a b => a.1 < b.1) := by
    refine List.Pairwise.imp₂ (fun a b hab hne => lt_of_le_of_ne hab hne)
      hsorted hneq
  exact List.eq_of_perm_of_sorted (hsp.trans hperm) hstrict hL

/-- Overlaying the port fields of one packet does not affect keys
without the `port-` prefix. -/
theorem dget_overlayPorts_not_port (q : Dict) (m : Dict) (k : String)
    (hk : strStartsWith k "port-" = false) :
    dget (overlayPorts m q) k = dget m k := by
  induction q generalizing m with
  | nil => rfl
  | cons kv q ih =>
      obtain ⟨k', v⟩ := kv
      show dget (overlayPorts (if strStartsWith k' "port-" = true
        then dset m k' v else m) q) k = dget m k
      rw [ih]
      by_cases hp : strStartsWith k' "port-" = true
      · rw [if_pos hp]
        have hne : k ≠ k' := by
          intro h; rw [h] at hk; rw [hp] at hk; cases hk
        exact aget_aset_ne m k' k v hne
      · rw [if_neg hp]

/-- Overlaying the port fields of one packet with unique keys writes
exactly the packet's value for a present port key and leaves absent port
keys to the accumulator. -/
theorem dget_overlayPorts_port (q : Dict) (m : Dict) (k : String)
    (hk : strStartsWith k "port-" = true) (hq : keysNodup q) :
    dget (overlayPorts m q) k
      = match dget q k with
        | some v => some v
        | none => dget m k := by
  induction q generalizing m with
  | nil => rfl
  | cons kv q ih =>
      obtain ⟨k', v⟩ := kv
      have hnc : (k' :: q.map Prod.fst).Nodup := hq
      have hq' : keysNodup q := (List.nodup_cons.mp hnc).2
      have hknotin : k' ∉ q.map Prod.fst := (List.nodup_cons.mp hnc).1
      show dget (overlayPorts (if strStartsWith k' "port-" = true
        then dset m k' v else m) q) k = _
      rw [ih _ hq']
      by_cases hkk : k = k'
      · subst hkk
        have hqk : dget q k = none := aget_eq_none_of_not_mem_keys q k hknotin
        rw [hqk]
        show dget (if strStartsWith k "port-" = true then dset m k v else m) k
          = match dget ((k, v) :: q) k with
            | some v => some v
            | none => dget m k
        rw [if_pos hk]
        show aget (aset m k v) k = _
        rw [aget_aset_self]
        simp [dget, aget]
      · have hdq : dget ((k', v) :: q) k = dget q k := by
          simp [dget, aget, hkk]
        rw [hdq]
        rcases hq2 : dget q k with _ | w
        · show dget (if strStartsWith k' "port-" = true
            then dset m k' v else m) k = dget m k
          by_cases hp : strStartsWith k' "port-" = true
          · rw [if_pos hp]
            exact aget_aset_ne m k' k v hkk
          · rw [if_neg hp]
        · rfl

/-- Folding port overlays across a list of parts: a port key ends with
the value of the last part that carries it, else the accumulator's. -/
theorem dget_fold_overlay_port (parts : List (Int × Dict)) (m : Dict)
    (k : String) (hk : strStartsWith k "port-" = true)
    (hnd : ∀ sp ∈ parts, keysNodup sp.2) :
    dget (parts.foldl (fun acc sp => overlayPorts acc sp.2) m) k
      = match lastVal (parts.map Prod.snd) k with
        | some v => some v
        | none => dget m k := by
  induction parts generalizing m with
  | nil => rfl
  | cons q rest ih =>
      have hq : keysNodup q.2 := hnd q (List.mem_cons_self q rest)
      have hrest : ∀ sp ∈ rest, keysNodup sp.2 :=
        fun sp hs => hnd sp (List.mem_cons_of_mem q hs)
      show dget (rest.foldl _ (overlayPorts m q.2)) k = _
      rw [ih _ hrest]
      show _ = match lastVal (q.2 :: rest.map Prod.snd) k with
        | some v => some v
        | none => dget m k
      rcases hlv : lastVal (rest.map Prod.snd) k with _ | v
      · rw [show lastVal (q.2 :: rest.map Prod.snd) k
            = match lastVal (rest.map Prod.snd) k with
              | some v => some v
              | none => dget q.2 k from rfl, hlv]
        exact dget_overlayPorts_port q.2 m k hk hq
      · rw [show lastVal (q.2 :: rest.map Prod.snd) k
            = match lastVal (rest.map Prod.snd) k with
              | some v => some v
              | none => dget q.2 k from rfl, hlv]

/-- Folding port overlays never touches non-port keys. -/
theorem dget_fold_overlay_not_port (parts : List (Int × Dict)) (m : Dict)
    (k : String) (hk : strStartsWith k "port-" = false) :
    dget (parts.foldl (fun acc sp => overlayPorts acc sp.2) m) k = dget m k := by
  induction parts generalizing m with
  | nil => rfl
  | cons q rest ih =>
      show dget (rest.foldl _ (overlayPorts m q.2)) k = dget m k
      rw [ih, dget_overlayPorts_not_port q.2 m k hk]

/-- Invariant run of `admitAll` over one assembly session: with `done`
the indices already admitted (their parts stored in arrival order) and
`arr` the indices still to arrive, every admission but the last buffers
(returns `none`) and the last one returns the merge of all parts. -/
theorem admitAll_run (N : Nat) (p : Nat → Dict) (K : String) (now : Nat)
    (hseq : ∀ i, i < N → intField (p i) "seq" = some (i : Int))
    (htot : ∀ i, i < N → intField (p i) "tot" = some (N : Int))
    (hkey : ∀ i, i < N → get_buffer_key (p i) = K) :
    ∀ (arr done : List Nat) (ts0 : Nat) (tbl : Table),
      (done ++ arr).Perm (List.range N) →
      arr ≠ [] →
      ((done = [] ∧ tget tbl K = none)
        ∨ (done ≠ [] ∧ tget tbl K
            = some ⟨done.map (fun (j : Nat) => ((j : Int), p j)), ts0, (N : Int)⟩)) →
      (admitAll now tbl (arr.map p)).2
        = List.replicate (arr.length - 1) none
          ++ [some (merge_packets
              ((done ++ arr).map (fun (j : Nat) => ((j : Int), p j))))] := by
  intro arr
  induction arr with
  | nil => intro done ts0 tbl _ hne _; exact absurd rfl hne
  | cons i rest ih =>
      intro done ts0 tbl hperm hne hstate
      have hiN : i < N := by
        have hmem : i ∈ List.range N := hperm.mem_iff.mp (by simp)
        exact List.mem_range.mp hmem
      have hnd : (done ++ i :: rest).Nodup :=
        hperm.nodup_iff.mpr (List.nodup_range N)
      have hsplit := List.nodup_append.mp hnd
      have hidone : i ∉ done := fun hmem =>
        (hsplit.2.2 hmem (by simp))
      have hirest : i ∉ rest := (List.nodup_cons.mp hsplit.2.1).1
      have hlen : done.length + (rest.length + 1) = N := by
        have := hperm.length_eq
        simp only [List.length_append, List.length_cons, List.length_range]
          at this
        omega
      -- the session entry before this admission, and after the insert
      have hentry : ∃ ts1,
          (tget tbl K).getD ⟨[], now, (N : Int)⟩
            = ⟨done.map (fun (j : Nat) => ((j : Int), p j)), ts1, (N : Int)⟩
          ∧ (done = [] → ts1 = now)
          ∧ (done ≠ [] → ts1 = ts0) := by
        rcases hstate with ⟨hd, htbl⟩ | ⟨hd, htbl⟩
        · subst hd
          exact ⟨now, by rw [htbl]; rfl, fun _ => rfl, fun h => absurd rfl h⟩
        · exact ⟨ts0, by rw [htbl]; rfl, fun h => absurd h hd, fun _ => rfl⟩
      obtain ⟨ts1, he, _, _⟩ := hentry
      have hget_none : aget (done.map (fun (j : Nat) => ((j : Int), p j))) (i : Int)
          = none := by
        apply aget_eq_none_of_not_mem_keys
        intro hmem
        simp only [List.map_map, List.mem_map, Function.comp] at hmem
        obtain ⟨j, hj, hji⟩ := hmem
        have : j = i := by exact_mod_cast hji
        exact hidone (this ▸ hj)
      have hset : aset (done.map (fun (j : Nat) => ((j : Int), p j))) (i : Int) (p i)
          = (done ++ [i]).map (fun (j : Nat) => ((j : Int), p j)) := by
        rw [aset_of_aget_none _ _ _ hget_none, List.map_append]
        rfl
      have hlen2 : ((done ++ [i]).map (fun (j : Nat) => ((j : Int), p j))).length
          = done.length + 1 := by
        simp
      by_cases hrest : rest = []
      · -- final admission: the set completes
        subst hrest
        have hNlen : done.length + 1 = N := by
          simpa using hlen
        have hcomp : ((aset (⟨done.map (fun (j : Nat) => ((j : Int), p j)), ts1,
            (N : Int)⟩ : BufferEntry).packets (i : Int) (p i)).length : Int)
            = (N : Int) := by
          show ((aset (done.map (fun (j : Nat) => ((j : Int), p j))) (i : Int)
            (p i)).length : Int) = (N : Int)
          rw [hset, hlen2]
          exact_mod_cast hNlen
        have hpk := process_packet_complete now tbl (p i) (i : Int) (N : Int)
          ⟨done.map (fun (j : Nat) => ((j : Int), p j)), ts1, (N : Int)⟩
          (hseq i hiN) (htot i hiN) (by rw [hkey i hiN]; exact he) hcomp
        show (admitAll now tbl ((i :: ([] : List Nat)).map p)).2 = _
        simp only [List.map_cons, List.map_nil, admitAll, hpk]
        show [some (merge_packets (aset (done.map fun (j : Nat) => ((j : Int), p j))
          (i : Int) (p i)))] = _
        rw [hset]
        rfl
      · -- intermediate admission: buffers and recurses
        have hrlen : 1 ≤ rest.length := List.length_pos.mpr hrest
        have hncomp : ¬ (((aset (⟨done.map (fun (j : Nat) => ((j : Int), p j)), ts1,
            (N : Int)⟩ : BufferEntry).packets (i : Int) (p i)).length : Int)
            = (N : Int)) := by
          show ¬ (((aset (done.map (fun (j : Nat) => ((j : Int), p j))) (i : Int)
            (p i)).length : Int) = (N : Int))
          rw [hset, hlen2]
          intro hcon
          have : done.length + 1 = N := by exact_mod_cast hcon
          omega
        have hpk := process_packet_store now tbl (p i) (i : Int) (N : Int)
          ⟨done.map (fun (j : Nat) => ((j : Int), p j)), ts1, (N : Int)⟩
          (hseq i hiN) (htot i hiN) (by rw [hkey i hiN]; exact he) hncomp
        rw [hkey i hiN] at hpk
        have htbl' : tget (tset tbl K
            ⟨aset (done.map (fun (j : Nat) => ((j : Int), p j))) (i : Int) (p i),
              ts1, (N : Int)⟩) K
            = some ⟨(done ++ [i]).map (fun (j : Nat) => ((j : Int), p j)), ts1,
                (N : Int)⟩ := by
          rw [show tget (tset tbl K
              ⟨aset (done.map (fun (j : Nat) => ((j : Int), p j))) (i : Int) (p i),
                ts1, (N : Int)⟩) K
              = some ⟨aset (done.map (fun (j : Nat) => ((j : Int), p j))) (i : Int)
                  (p i), ts1, (N : Int)⟩ from aget_aset_self tbl K _, hset]
        have hperm' : ((done ++ [i]) ++ rest).Perm (List.range N) := by
          rw [List.append_assoc]
          exact hperm
        have hrec := ih (done ++ [i]) ts1
          (tset tbl K
            ⟨aset (done.map (fun (j : Nat) => ((j : Int), p j))) (i : Int) (p i),
              ts1, (N : Int)⟩)
          hperm' hrest
          (Or.inr ⟨by simp, htbl'⟩)
        show (admitAll now tbl ((i :: rest).map p)).2 = _
        simp only [List.map_cons, admitAll, hpk]
        show none :: (admitAll now (tset tbl K
            ⟨aset (done.map (fun (j : Nat) => ((j : Int), p j))) (i : Int) (p i),
              ts1, (N : Int)⟩) (rest.map p)).2 = _
        rw [hrec]
        rw [show (i :: rest).length - 1 = rest.length from rfl]
        rw [show rest.length = (rest.length - 1) + 1 from by omega,
          List.replicate_succ]
        simp [List.append_assoc]

theorem lastVal_cons (d : Dict) (ds : List Dict) (k : String) :
    lastVal (d :: ds) k
      = match lastVal ds k with
        | some v => some v
        | none => dget d k := rfl

/-- C1 (amended).  For every complete set of multi-part packets with
sequence indices `{0..N-1}` sharing one assembly key `K`, admitted via
`process_packet` in any interleaving/order `σ`, the Reassembly Buffer
returns exactly one MergedRecord (every earlier admission returns
`none`), and that record has no `seq`/`tot` field, its non-port fields
equal those of part 0, and each port-prefixed field equals the value
carried by the *highest-sequence-index* part containing that key
(`lastVal` over the parts in index order) — which is the last-received
value only when parts arrive in index order. -/
theorem reassembly_complete_set (N : Nat) (p : Nat → Dict) (K : String)
    (σ : List Nat) (tbl0 : Table) (now : Nat)
    (hN : 1 ≤ N)
    (hperm : σ.Perm (List.range N))
    (hseq : ∀ i, i < N → intField (p i) "seq" = some (i : Int))
    (htot : ∀ i, i < N → intField (p i) "tot" = some (N : Int))
    (hkey : ∀ i, i < N → get_buffer_key (p i) = K)
    (hnd : ∀ i, i < N → keysNodup (p i))
    (h0 : tget tbl0 K = none) :
    ∃ M, (admitAll now tbl0 (σ.map p)).2
        = List.replicate (N - 1) none ++ [some M]
      ∧ dget M "seq" = none ∧ dget M "tot" = none
      ∧ (∀ k, strStartsWith k "port-" = false → k ≠ "seq" → k ≠ "tot" →
          dget M k = dget (p 0) k)
      ∧ (∀ k, strStartsWith k "port-" = true →
          dget M k = lastVal ((List.range N).map p) k) := by
  obtain ⟨N', rfl⟩ : ∃ n, N = n + 1 := ⟨N - 1, by omega⟩
  have hσlen : σ.length = N' + 1 := by simpa using hperm.length_eq
  have hσne : σ ≠ [] := by
    intro h
    rw [h] at hσlen
    simp at hσlen
  have hrun := admitAll_run (N' + 1) p K now hseq htot hkey σ [] 0 tbl0
    (by simpa using hperm) hσne (Or.inl ⟨rfl, h0⟩)
  rw [hσlen] at hrun
  simp only [List.nil_append] at hrun
  have hsort : List.insertionSort (fun a b => a.1 ≤ b.1)
      (σ.map (fun (j : Nat) => ((j : Int), p j)))
      = (List.range (N' + 1)).map (fun (j : Nat) => ((j : Int), p j)) := by
    apply insertionSort_parts_canonical
    · exact hperm.map _
    · refine List.pairwise_map.mpr ?_
      refine (List.pairwise_lt_range (N' + 1)).imp ?_
      intro a b hab
      have hab' : (a : Int) < (b : Int) := by exact_mod_cast hab
      exact hab'
    · rw [List.map_map]
      refine List.Nodup.map ?_ (hperm.nodup_iff.mpr (List.nodup_range (N' + 1)))
      intro a b hab
      have hab' : (a : Int) = (b : Int) := hab
      exact_mod_cast hab'
  have hdecomp : (List.range (N' + 1)).map (fun (j : Nat) => ((j : Int), p j))
      = (((0 : Nat) : Int), p 0) :: (List.range N').map
          (fun (j : Nat) => (((j + 1 : Nat) : Int), p (j + 1))) := by
    rw [List.range_succ_eq_map, List.map_cons, List.map_map]
    rfl
  have hM : merge_packets (σ.map (fun (j : Nat) => ((j : Int), p j)))
      = ((List.range N').map
          (fun (j : Nat) => (((j + 1 : Nat) : Int), p (j + 1)))).foldl
          (fun m sp => overlayPorts m sp.2)
          (dpop (dpop (p 0) "seq") "tot") := by
    unfold merge_packets
    rw [hsort, hdecomp]
  have htailnd : ∀ sp ∈ (List.range N').map
      (fun (j : Nat) => (((j + 1 : Nat) : Int), p (j + 1))), keysNodup sp.2 := by
    intro sp hsp
    simp only [List.mem_map, List.mem_range] at hsp
    obtain ⟨j, hj, rfl⟩ := hsp
    exact hnd (j + 1) (by omega)
  have htailsnd : ((List.range N').map
      (fun (j : Nat) => (((j + 1 : Nat) : Int), p (j + 1)))).map Prod.snd
      = (List.range N').map (fun j => p (j + 1)) := by
    rw [List.map_map]
    rfl
  have hrangep : (List.range (N' + 1)).map p
      = p 0 :: (List.range N').map (fun j => p (j + 1)) := by
    rw [List.range_succ_eq_map, List.map_cons, List.map_map]
    rfl
  refine ⟨merge_packets (σ.map (fun (j : Nat) => ((j : Int), p j))), hrun,
    ?_, ?_, ?_, ?_⟩
  · rw [hM, dget_fold_overlay_not_port _ _ _ (by decide)]
    show aget (adel (adel (p 0) "seq") "tot") "seq" = none
    rw [aget_adel_ne _ _ _ (by decide)]
    exact aget_adel_self (p 0) "seq"
  · rw [hM, dget_fold_overlay_not_port _ _ _ (by decide)]
    exact aget_adel_self (adel (p 0) "seq") "tot"
  · intro k hk hks hkt
    rw [hM, dget_fold_overlay_not_port _ _ _ hk]
    show aget (adel (adel (p 0) "seq") "tot") k = aget (p 0) k
    rw [aget_adel_ne _ _ _ hkt, aget_adel_ne _ _ _ hks]
  · intro k hk
    have hks : k ≠ "seq" := by
      intro h; subst h; exact absurd hk (by decide)
    have hkt : k ≠ "tot" := by
      intro h; subst h; exact absurd hk (by decide)
    have hbase : dget (dpop (dpop (p 0) "seq") "tot") k = dget (p 0) k := by
      show aget (adel (adel (p 0) "seq") "tot") k = aget (p 0) k
      rw [aget_adel_ne _ _ _ hkt, aget_adel_ne _ _ _ hks]
    rw [hM, dget_fold_overlay_port _ _ _ hk htailnd, htailsnd, hrangep,
      lastVal_cons]
    rcases hlv : lastVal ((List.range N').map fun j => p (j + 1)) k with _ | v
    · simp only [hlv, hbase]
    · simp only [hlv]

/-- Witness for `reassembly_complete_set`: the spec's §8 scenario —
parts `{seq 0, tot 2, controllerId "A", port-1 "10"}` then
`{seq 1, tot 2, controllerId "A", port-2 "20"}` admitted in order
`[0, 1]` under key `"A_0"` — yields exactly one merged record with no
`seq`/`tot`, non-port fields from part 0, and both port fields. -/
theorem reassembly_complete_set_witness :
    ∃ M, (admitAll 0 []
        ([0, 1].map (fun i =>
          if i = 0 then
            [("seq", Val.vint 0), ("tot", Val.vint 2),
             ("sensor_controller_id", Val.vstr "A"),
             ("port-1", Val.vstr "10")]
          else
            [("seq", Val.vint 1), ("tot", Val.vint 2),
             ("sensor_controller_id", Val.vstr "A"),
             ("port-2", Val.vstr "20")]))).2
      = List.replicate (2 - 1) none ++ [some M]
      ∧ dget M "seq" = none ∧ dget M "tot" = none
      ∧ (∀ k, strStartsWith k "port-" = false → k ≠ "seq" → k ≠ "tot" →
          dget M k = dget [("seq", Val.vint 0), ("tot", Val.vint 2),
            ("sensor_controller_id", Val.vstr "A"),
            ("port-1", Val.vstr "10")] k)
      ∧ (∀ k, strStartsWith k "port-" = true →
          dget M k = lastVal ((List.range 2).map (fun i =>
            if i = 0 then
              [("seq", Val.vint 0), ("tot", Val.vint 2),
               ("sensor_controller_id", Val.vstr "A"),
               ("port-1", Val.vstr "10")]
            else
              [("seq", Val.vint 1), ("tot", Val.vint 2),
               ("sensor_controller_id", Val.vstr "A"),
               ("port-2", Val.vstr "20")])) k) :=
  reassembly_complete_set 2
    (fun i =>
      if i = 0 then
        [("seq", Val.vint 0), ("tot", Val.vint 2),
         ("sensor_controller_id", Val.vstr "A"),
         ("port-1", Val.vstr "10")]
      else
        [("seq", Val.vint 1), ("tot", Val.vint 2),
         ("sensor_controller_id", Val.vstr "A"),
         ("port-2", Val.vstr "20")])
    "A_0" [0, 1] [] 0
    (by decide) (by decide) (by decide) (by decide) (by decide) (by decide)
    (by decide)

/-- C2 (amended).  Provided every admission is consistent — its `tot` is
at least 1 and agrees with the recorded total of the session it lands in
(`StepConsistent`) — the invariant that every stored session holds
strictly fewer parts than its `expectedTotal` (`TableInv`, which implies
`len(parts) <= expectedTotal`) is preserved by every atomic step on the
table (first conjunct; the table lock makes `process_packet` and the
janitor sweep atomic).  Moreover a session is removed by a step through
exactly one of the two removal paths, determined by the kind of the
step, so the paths are mutually exclusive: an admission removes the
session at key `k` only by completing it (the admitted packet lands on
`k` and the updated part count equals that packet's `tot`, with the
merge returned), and a sweep removes it only when it is stale (second
conjunct). -/
theorem table_invariant_and_removal (st : Step) (tbl : Table)
    (hInv : TableInv tbl) (hC : StepConsistent st tbl) :
    TableInv (applyStep st tbl)
    ∧ (∀ k e, tget tbl k = some e → tget (applyStep st tbl) k = none →
        (match st with
         | .ingest now p => ∃ s t, intField p "seq" = some s
              ∧ intField p "tot" = some t
              ∧ get_buffer_key p = k
              ∧ ((aset e.packets s p).length : Int) = t
              ∧ (process_packet now tbl p).2.isSome = true
         | .sweep timeout now => timeout < now - e.timestamp)) := by
  cases st with
  | sweep timeout n =>
      constructor
      · intro kv hkv
        exact hInv kv (List.mem_of_mem_filter hkv)
      · intro k e hk hnone
        show timeout < n - e.timestamp
        by_contra hfresh
        have hsome := tget_cleanup_of_fresh timeout n tbl k e hk hfresh
        have : tget (applyStep (.sweep timeout n) tbl) k = some e := hsome
        rw [hnone] at this
        cases this
  | ingest n p =>
      have happly : applyStep (.ingest n p) tbl = (process_packet n tbl p).1 := rfl
      rcases hs : intField p "seq" with _ | s
      · rw [happly, process_packet_no_meta n tbl p (Or.inl hs)] at *
        exact ⟨hInv, fun k e hk hnone => absurd (hk.symm.trans hnone) (by simp)⟩
      rcases ht : intField p "tot" with _ | t
      · rw [happly, process_packet_no_meta n tbl p (Or.inr ht)] at *
        exact ⟨hInv, fun k e hk hnone => absurd (hk.symm.trans hnone) (by simp)⟩
      obtain ⟨ht1, htote⟩ := hC s t hs ht
      have he0 : (tget tbl (get_buffer_key p)).getD ⟨[], n, t⟩
          = (tget tbl (get_buffer_key p)).getD ⟨[], n, t⟩ := rfl
      set e0 : BufferEntry := (tget tbl (get_buffer_key p)).getD ⟨[], n, t⟩
        with he0d
      have hlt : ((aset e0.packets s p).length : Int) ≤ e0.total
          ∧ e0.total = t := by
        rcases hl : tget tbl (get_buffer_key p) with _ | e1
        · have : e0 = ⟨[], n, t⟩ := by rw [he0d, hl]; rfl
          rw [this]
          constructor
          · show ((aset ([] : List (Int × Dict)) s p).length : Int) ≤ t
            simp only [aset, List.length_singleton]
            omega
          · rfl
        · have he1 : e0 = e1 := by rw [he0d, hl]; rfl
          have hmem : (get_buffer_key p, e1) ∈ tbl :=
            aget_some_mem tbl (get_buffer_key p) e1 hl
          have hinv1 : (e1.packets.length : Int) < e1.total :=
            hInv (get_buffer_key p, e1) hmem
          have hle := aset_length_le e1.packets s p
          have htt : t = e1.total := htote e1 hl
          rw [he1]
          constructor
          · have : ((aset e1.packets s p).length : Int)
                ≤ (e1.packets.length : Int) + 1 := by exact_mod_cast hle
            omega
          · omega
      constructor
      · -- invariant preservation
        by_cases hcomp : ((aset e0.packets s p).length : Int) = t
        · rw [happly, process_packet_complete n tbl p s t e0 hs ht he0d.symm hcomp]
          intro kv hkv
          exact hInv kv (mem_of_mem_adel tbl (get_buffer_key p) kv hkv)
        · rw [happly, process_packet_store n tbl p s t e0 hs ht he0d.symm hcomp]
          intro kv hkv
          rcases mem_aset tbl (get_buffer_key p) _ kv hkv with hkv' | hkv'
          · rw [hkv']
            show ((aset e0.packets s p).length : Int) < e0.total
            omega
          · exact hInv kv hkv'
      · -- removal dichotomy
        intro k e hk hnone
        by_cases hcomp : ((aset e0.packets s p).length : Int) = t
        · rw [happly, process_packet_complete n tbl p s t e0 hs ht he0d.symm hcomp]
            at hnone
          by_cases hkey : get_buffer_key p = k
          · have hee : e0 = e := by
              rw [he0d, hkey, hk]; rfl
            refine ⟨s, t, hs, ht, hkey, by rw [← hee]; exact hcomp, ?_⟩
            rw [process_packet_complete n tbl p s t e0 hs ht he0d.symm hcomp]
            rfl
          · exfalso
            have : tget (tdel tbl (get_buffer_key p)) k = some e := by
              show aget (adel tbl (get_buffer_key p)) k = some e
              rw [aget_adel_ne tbl (get_buffer_key p) k
                (fun h => hkey h.symm)]
              exact hk
            rw [this] at hnone
            cases hnone
        · exfalso
          rw [happly, process_packet_store n tbl p s t e0 hs ht he0d.symm hcomp]
            at hnone
          by_cases hkey : get_buffer_key p = k
          · rw [← hkey] at hnone
            have : tget (tset tbl (get_buffer_key p)
                ⟨aset e0.packets s p, e0.timestamp, e0.total⟩)
                (get_buffer_key p)
                = some ⟨aset e0.packets s p, e0.timestamp, e0.total⟩ :=
              aget_aset_self tbl (get_buffer_key p) _
            rw [this] at hnone
            cases hnone
          · have : tget (tset tbl (get_buffer_key p)
                ⟨aset e0.packets s p, e0.timestamp, e0.total⟩) k = some e := by
              show aget (aset tbl (get_buffer_key p) _) k = some e
              rw [aget_aset_ne tbl (get_buffer_key p) k _
                (fun h => hkey h.symm)]
              exact hk
            rw [this] at hnone
            cases hnone

/-- Witness for `table_invariant_and_removal`: an invariant-satisfying
table holding parts `{0}` of 2 admits the consistent part
`{seq 1, tot 2}`; the invariant is preserved and the session's removal
by this admission is classified as a completion. -/
theorem table_invariant_and_removal_witness :
    TableInv (applyStep
      (.ingest 5 [("seq", Val.vint 1), ("tot", Val.vint 2)])
      [("unknown_0", ⟨[(0, [("seq", Val.vint 0), ("tot", Val.vint 2)])], 0, 2⟩)])
    ∧ (∀ k e, tget
        [("unknown_0", ⟨[(0, [("seq", Val.vint 0), ("tot", Val.vint 2)])], 0, 2⟩)]
        k = some e →
      tget (applyStep
        (.ingest 5 [("seq", Val.vint 1), ("tot", Val.vint 2)])
        [("unknown_0",
          ⟨[(0, [("seq", Val.vint 0), ("tot", Val.vint 2)])], 0, 2⟩)]) k = none →
      ∃ s t, intField [("seq", Val.vint 1), ("tot", Val.vint 2)] "seq" = some s
        ∧ intField [("seq", Val.vint 1), ("tot", Val.vint 2)] "tot" = some t
        ∧ get_buffer_key [("seq", Val.vint 1), ("tot", Val.vint 2)] = k
        ∧ ((aset e.packets s [("seq", Val.vint 1), ("tot", Val.vint 2)]).length
            : Int) = t
        ∧ (process_packet 5
            [("unknown_0",
              ⟨[(0, [("seq", Val.vint 0), ("tot", Val.vint 2)])], 0, 2⟩)]
            [("seq", Val.vint 1), ("tot", Val.vint 2)]).2.isSome = true) :=
  table_invariant_and_removal
    (.ingest 5 [("seq", Val.vint 1), ("tot", Val.vint 2)])
    [("unknown_0", ⟨[(0, [("seq", Val.vint 0), ("tot", Val.vint 2)])], 0, 2⟩)]
    (by decide)
    (by intro s t hs ht
        have h1 : intField [("seq", Val.vint 1), ("tot", Val.vint 2)] "seq"
            = some 1 := by decide
        have h2 : intField [("seq", Val.vint 1), ("tot", Val.vint 2)] "tot"
            = some 2 := by decide
        rw [h1] at hs
        rw [h2] at ht
        obtain rfl : (1 : Int) = s := Option.some_inj.mp hs
        obtain rfl : (2 : Int) = t := Option.some_inj.mp ht
        refine ⟨by omega, ?_⟩
        intro e he
        have hkey : get_buffer_key [("seq", Val.vint 1), ("tot", Val.vint 2)]
            = "unknown_0" := by decide
        rw [hkey] at he
        have htbl : tget
            [("unknown_0",
              ⟨[(0, [("seq", Val.vint 0), ("tot", Val.vint 2)])], 0, 2⟩)]
            "unknown_0"
            = some ⟨[(0, [("seq", Val.vint 0), ("tot", Val.vint 2)])], 0, 2⟩ := by
          decide
        rw [htbl] at he
        obtain rfl := Option.some_inj.mp he
        rfl)

/-- Witness for `http_retry_policy` with `HTTP_MAX_RETRY = 3` and a
server that always answers 500: three attempts, failure reported,
delays `[1, 2, 3]` non-decreasing; a shutdown during the second wait
abandons the job after exactly 2 attempts. -/
theorem http_retry_policy_witness :
    http_post 3 (fun _ => HttpOutcome.status 500) (fun _ => false) (fun _ => false)
      = (false, 3, (attemptList 3).map backoffDelay)
    ∧ List.Chain' (· ≤ ·) ((attemptList 3).map backoffDelay)
    ∧ http_post 3 (fun _ => HttpOutcome.status 500) (fun _ => false)
        (fun a => a == 2)
      = (false, 2, (attemptList 1).map backoffDelay) :=
  ⟨(http_retry_policy 3 (fun _ => HttpOutcome.status 500) (fun _ => rfl)).1,
   (http_retry_policy 3 (fun _ => HttpOutcome.status 500) (fun _ => rfl)).2.1,
   (http_retry_policy 3 (fun _ => HttpOutcome.status 500) (fun _ => rfl)).2.2 2
     (by decide) (by decide)⟩

end Ciren
